import Mathlib

set_option maxHeartbeats 1600000

/-! Verification of the author-deduplication ETL pipeline in etl_pandas.py.

The definitions below are a shallow embedding of the pandas code:
DataFrames become lists of rows carrying their pandas index label and
Python str.replace becomes pyReplace.  The query expression that the loop
interpolates a full name into unescaped is interpreted by interpName for
the modelled fragment of the Python grammar: a plain name denotes itself,
a backslash-free name with an odd number of single quotes leaves an
unterminated string literal and raises, a name whose quotes form adjacent
pairs parses by implicit string concatenation and denotes the
concatenated value, and everything else (escape processing, quote
injection into larger expressions) is explicitly outside the model and is
quantified over by no theorem.
-/

/-- Row of the authors DataFrame produced by get_authors.  The label field
records the pandas RangeIndex label used by idxmax, loc and drop. -/
structure AuthorRow where
  label : Nat
  author_id : String
  full_name : String
  h_index : Int
  research_sector : String
deriving DecidableEq

/-- Row of the publications and incoming_publications DataFrames produced by
get_publications and get_incoming_publications. -/
structure PubRow where
  publication_id : String
  author_list : List String
  topic_list : List String
  publication_year : Int
  doi : String
deriving DecidableEq

/-- The three record batches threaded through cleaned_authors_publications. -/
structure Batches where
  authors : List AuthorRow
  publications : List PubRow
  incoming_publications : List PubRow
deriving DecidableEq

/-- Tests whether the first character list is an initial segment of the
second. -/
def beginsWith : List Char → List Char → Bool
  | [], _ => true
  | _ :: _, [] => false
  | p :: ps, c :: cs => p == c && beginsWith ps cs

/-- Tests whether pat occurs as a contiguous substring of s. -/
def containsSub (pat : List Char) : List Char → Bool
  | [] => pat.isEmpty
  | c :: cs => beginsWith pat (c :: cs) || containsSub pat cs

/-- One left-to-right non-overlapping replacement pass over a character
list, as performed by Python str.replace, with explicit fuel so that the
recursion is structural.  Fuel at least the length of the list is enough. -/
def replaceChars (pat rep : List Char) : Nat → List Char → List Char
  | _, [] => []
  | 0, l => l
  | fuel + 1, c :: cs =>
    if beginsWith pat (c :: cs) && !pat.isEmpty then
      rep ++ replaceChars pat rep fuel ((c :: cs).drop pat.length)
    else
      c :: replaceChars pat rep fuel cs

/-- Python str.replace, so that pyReplace s pat rep models s.replace(pat,
rep).  An empty pattern inserts rep before every character and after the
last one, matching CPython. -/
def pyReplace (s pat rep : String) : String :=
  if pat.data.isEmpty then
    ⟨rep.data ++ s.data.foldr (fun c acc => c :: (rep.data ++ acc)) []⟩
  else
    ⟨replaceChars pat.data rep.data s.data.length s.data⟩

/-- All rows of the authors frame whose full_name equals the given
comparison value, in frame order: the rows the authors.query call selects
once interpName has turned the interpolated name into that value. -/
def nameGroup (authors : List AuthorRow) (name : String) : List AuthorRow :=
  authors.filter (fun r => r.full_name == name)

/-- Row picked by Series.idxmax on h_index: the first row attaining the
maximum. -/
def pickMax : List AuthorRow → Option AuthorRow
  | [] => none
  | r :: rs =>
    match pickMax rs with
    | none => some r
    | some m => if m.h_index > r.h_index then some m else some r

/-- Row picked by reversing the group with iloc and applying Series.idxmin
to h_index: the last row attaining the minimum. -/
def pickMinLast : List AuthorRow → Option AuthorRow
  | [] => none
  | r :: rs =>
    match pickMinLast rs with
    | none => some r
    | some m => if r.h_index < m.h_index then some r else some m

/-- The canonical row (idxmax of h_index) and the removal-target row
(idxmin of h_index over the reversed group) computed by one iteration of
the loop in cleaned_authors_publications. -/
def selectPair (authors : List AuthorRow) (name : String) :
    Option (AuthorRow × AuthorRow) :=
  match pickMax (nameGroup authors name), pickMinLast (nameGroup authors name) with
  | some keep, some rem => some (keep, rem)
  | _, _ => none

/-- Single-quote character, written by code point. -/
def squote : Char := Char.ofNat 39

/-- Backslash character, written by code point. -/
def backslash : Char := Char.ofNat 92

/-- Line-feed character, written by code point. -/
def lineFeed : Char := Char.ofNat 10

/-- Carriage-return character, written by code point. -/
def carriageReturn : Char := Char.ofNat 13

/-- Outcome of parsing the filter expression that the loop body builds by
interpolating a full name unescaped between single quotes: the expression
compares full_name against a string value, or fails to parse, or falls
outside the fragment of the Python grammar modelled here. -/
inductive NameQuery where
  | value (s : String)
  | raises
  | unmodelled
deriving DecidableEq

/-- Value of the interpolated literal when every single quote inside the
name is immediately followed by another one: each adjacent pair closes one
literal and opens the next, so Python implicit string concatenation yields
the name with the quote pairs deleted.  Any other quote placement is
outside this reading and gives none. -/
def stripQuotePairs : List Char → Option (List Char)
  | [] => some []
  | c :: cs =>
    if c == squote then
      match cs with
      | [] => none
      | c2 :: cs2 => if c2 == squote then stripQuotePairs cs2 else none
    else (stripQuotePairs cs).map (fun v => c :: v)

/-- Semantics of DataFrame.query on the interpolated expression built from
name, for the fragment of the Python grammar this development models:
a name containing a backslash is escape-processed by the Python tokenizer
into a different comparison value and is left unmodelled; a backslash-free
name with an odd number of single quotes always leaves the final quote
opening an unterminated string literal, so the query raises; a name whose
quotes form adjacent pairs parses by implicit string concatenation and the
query compares full_name against the concatenated value, which for a
quote-free name is the name itself; every other shape (for instance a
quote injection that parses as a larger boolean expression, or a newline
inside the literal) is left unmodelled.  No theorem below quantifies over
unmodelled names: general statements restrict the batch to plainName
names, on which this function is exact. -/
def interpName (name : String) : NameQuery :=
  if name.data.contains backslash then NameQuery.unmodelled
  else if name.data.count squote % 2 == 1 then NameQuery.raises
  else if name.data.contains lineFeed || name.data.contains carriageReturn then
    NameQuery.unmodelled
  else
    match stripQuotePairs name.data with
    | some v => NameQuery.value ⟨v⟩
    | none => NameQuery.unmodelled

/-- A name whose unescaped interpolation denotes exactly the name itself:
no quote, no backslash, no line break.  On such names the query is a plain
string-equality filter. -/
def plainName (s : String) : Bool :=
  !s.data.contains squote && !s.data.contains backslash &&
    !s.data.contains lineFeed && !s.data.contains carriageReturn

/-- Element-wise str.replace of the removal-target id by the canonical id
over an author_list, as the loop body applies to every publication row. -/
def rewritePub (remId keepId : String) (p : PubRow) : PubRow :=
  { p with author_list := p.author_list.map (fun y => pyReplace y remId keepId) }

/-- One iteration of the loop in cleaned_authors_publications for one
duplicated full name: interpret the interpolated query expression, raising
when it is malformed, select the group of rows matching the interpreted
comparison value (raising when idxmax is applied to an empty selection),
drop the removal-target row by label, and rewrite both publication
batches.  A name outside the modelled expression fragment is mapped to a
distinguished error; the program may complete on such a name, so no
theorem below draws conclusions about batches containing one. -/
def processName (b : Batches) (name : String) : Except String Batches :=
  match interpName name with
  | NameQuery.raises => Except.error "query: invalid syntax"
  | NameQuery.unmodelled => Except.error "query: outside the modelled fragment"
  | NameQuery.value v =>
    match selectPair b.authors v with
    | some (keep, rem) =>
      Except.ok
        { authors := b.authors.filter (fun r => r.label != rem.label),
          publications := b.publications.map (rewritePub rem.author_id keep.author_id),
          incoming_publications :=
            b.incoming_publications.map (rewritePub rem.author_id keep.author_id) }
    | none => Except.error "attempt to get argmax of an empty sequence"

/-- The loop of cleaned_authors_publications over the set of duplicated
full names, taken in the given iteration order; a raised exception aborts
the run. -/
def reconcile (names : List String) (b : Batches) : Except String Batches :=
  match names with
  | [] => Except.ok b
  | n :: ns =>
    match processName b n with
    | Except.ok b1 => reconcile ns b1
    | Except.error e => Except.error e

/-- A full name is in collision when at least two author rows carry it,
which is what authors.duplicated on full_name with keep=False marks. -/
def colliding (authors : List AuthorRow) (name : String) : Bool :=
  decide (2 ≤ (nameGroup authors name).length)

/-- names enumerates, in some order and without repetition, the set of
duplicated full names the Python for-loop iterates over. -/
def collidingEnum (authors : List AuthorRow) (names : List String) : Prop :=
  names.Nodup ∧ (∀ n ∈ names, colliding authors n = true) ∧
    ∀ r ∈ authors, colliding authors r.full_name = true → r.full_name ∈ names

/-- The pandas RangeIndex labels of the authors frame are pairwise
distinct, as read_csv guarantees. -/
def labelsNodup (authors : List AuthorRow) : Prop :=
  (authors.map (fun r => r.label)).Nodup

/-- Labels of the removal-target rows of the listed names, computed on the
original authors batch. -/
def removedLabels (authors : List AuthorRow) (names : List String) : List Nat :=
  names.filterMap (fun n => (selectPair authors n).map (fun kr => kr.2.label))

/-- The (removal-target id, canonical id) pairs of the listed names, in
iteration order, computed on the original authors batch. -/
def pairsOf (authors : List AuthorRow) (names : List String) :
    List (String × String) :=
  names.filterMap
    (fun n => (selectPair authors n).map (fun kr => (kr.2.author_id, kr.1.author_id)))

/-- Sequential application of the element-wise replacements of successive
loop iterations. -/
def rewriteAll (prs : List (String × String)) (y : String) : String :=
  prs.foldl (fun s pr => pyReplace s pr.1 pr.2) y

/-- Element j of the author_list of publication i. -/
def pubElem (ps : List PubRow) (i j : Nat) : Option String :=
  (ps[i]?).bind (fun p => p.author_list[j]?)

/-- Spec-side description of the canonical record of a collision group:
maximum h_index, ties broken by taking the first such record in ingestion
order. -/
def isFirstMax (g : List AuthorRow) (k : AuthorRow) : Prop :=
  ∃ l1 l2, g = l1 ++ k :: l2 ∧ (∀ x ∈ l1, x.h_index < k.h_index) ∧
    ∀ x ∈ l2, x.h_index ≤ k.h_index

/-- Spec-side description of the removal target of a collision group:
minimum h_index, ties broken by taking the last such record in ingestion
order. -/
def isLastMin (g : List AuthorRow) (m : AuthorRow) : Prop :=
  ∃ l1 l2, g = l1 ++ m :: l2 ∧ (∀ x ∈ l1, m.h_index ≤ x.h_index) ∧
    ∀ x ∈ l2, m.h_index < x.h_index

/-- Topic row after the fillna step of get_topics. -/
structure TopicRow where
  topic_id : String
  name : String
deriving DecidableEq

/-- Topic row as read from CSV; none models a missing (NaN) name, which is
also what read_csv yields for an empty name cell. -/
structure RawTopicRow where
  topic_id : String
  name : Option String
deriving DecidableEq

/-- topics.name.fillna with the sentinel, applied to one row. -/
def fillTopicName (t : RawTopicRow) : TopicRow :=
  { topic_id := t.topic_id, name := t.name.getD "Not Available" }

/-- topics.name.fillna with the sentinel, applied to the whole batch. -/
def fillTopicNames (ts : List RawTopicRow) : List TopicRow :=
  ts.map fillTopicName

/-- Every topic_id mentioned in a topic_list of either publication batch:
the pub_topics set built in get_topics by concat and explode. -/
def pubTopicIds (pubs inc : List PubRow) : List String :=
  ((pubs ++ inc).map (fun p => p.topic_list)).flatten

/-- The filtering step of get_topics: keep the topic rows whose topic_id is
mentioned by some publication or incoming publication. -/
def filterTopics (topics : List TopicRow) (pubs inc : List PubRow) : List TopicRow :=
  topics.filter (fun t => decide (t.topic_id ∈ pubTopicIds pubs inc))

/-- Behavior of the driver calls inside Neo4jConnection.query: whether
opening the session raises, whether session.run raises, and the rows
returned on success. -/
structure DriverEnv where
  sessionOpens : Bool
  runSucceeds : Bool
  runRows : List String
deriving DecidableEq

/-- Observable outcome of one Neo4jConnection.query call. -/
structure QueryOutcome where
  response : Option (List String)
  failureLogged : Bool
  sessionOpened : Bool
  sessionClosed : Bool
deriving DecidableEq

/-- Neo4jConnection.query: the assert on the driver, the try block opening
a session and listing session.run, the except block printing the failure,
and the finally block closing the session whenever one was opened. -/
def runQuery (driverReady : Bool) (env : DriverEnv) : Except String QueryOutcome :=
  if !driverReady then Except.error "Driver assertion failed" else
  if !env.sessionOpens then
    Except.ok { response := none, failureLogged := true,
                sessionOpened := false, sessionClosed := false }
  else if !env.runSucceeds then
    Except.ok { response := none, failureLogged := true,
                sessionOpened := true, sessionClosed := true }
  else
    Except.ok { response := some env.runRows, failureLogged := false,
                sessionOpened := true, sessionClosed := true }

/-- Three-way collision scenario from the spec: one name, h-indices 5, 9, 1. -/
def scenario3 : Batches :=
  ⟨[⟨0, "1", "x", 5, "sA"⟩, ⟨1, "2", "x", 9, "sA"⟩, ⟨2, "3", "x", 1, "sB"⟩], [], []⟩

/-- Result of one reconciliation pass on scenario3. -/
def scenario3out : Batches :=
  ⟨[⟨0, "1", "x", 5, "sA"⟩, ⟨1, "2", "x", 9, "sA"⟩], [], []⟩

/-- Batch refuting claim C1: the removal target has id 12, the canonical id
is 1, and the element 122 rewrites to 12, the removed id itself. -/
def c1cexBatch : Batches :=
  ⟨[⟨0, "1", "x", 9, "s"⟩, ⟨1, "12", "x", 5, "s"⟩],
   [⟨"p1", ["122"], [], 2020, "d"⟩], []⟩

/-- Result of reconciliation on c1cexBatch. -/
def c1cexOut : Batches :=
  ⟨[⟨0, "1", "x", 9, "s"⟩], [⟨"p1", ["12"], [], 2020, "d"⟩], []⟩

/-- Scenario batch used to exercise the amended claim C1: the three-way
collision together with one publication referencing ids 1 and 3. -/
def c1amBatch : Batches :=
  ⟨[⟨0, "1", "x", 5, "sA"⟩, ⟨1, "2", "x", 9, "sA"⟩, ⟨2, "3", "x", 1, "sB"⟩],
   [⟨"p1", ["1", "3"], ["7"], 2020, "d"⟩], []⟩

/-- Result of reconciliation on c1amBatch: the element 3 rewrites to the
canonical id 2 and the element 1 is untouched. -/
def c1amOut : Batches :=
  ⟨[⟨0, "1", "x", 5, "sA"⟩, ⟨1, "2", "x", 9, "sA"⟩],
   [⟨"p1", ["1", "2"], ["7"], 2020, "d"⟩], []⟩

/-- Batch refuting claim C5: two collision groups whose substring
replacements interact, so the group processing order changes the rewritten
publication batch. -/
def c5cexBatch : Batches :=
  ⟨[⟨0, "1", "x", 1, "s"⟩, ⟨1, "12", "x", 9, "s"⟩,
    ⟨2, "2", "y", 1, "s"⟩, ⟨3, "3", "y", 9, "s"⟩],
   [⟨"p1", ["1"], [], 2020, "d"⟩], []⟩

/-- Result of reconciling c5cexBatch processing name x first. -/
def c5cexOutXY : Batches :=
  ⟨[⟨1, "12", "x", 9, "s"⟩, ⟨3, "3", "y", 9, "s"⟩],
   [⟨"p1", ["13"], [], 2020, "d"⟩], []⟩

/-- Result of reconciling c5cexBatch processing name y first. -/
def c5cexOutYX : Batches :=
  ⟨[⟨1, "12", "x", 9, "s"⟩, ⟨3, "3", "y", 9, "s"⟩],
   [⟨"p1", ["12"], [], 2020, "d"⟩], []⟩

/-- Batch refuting claim C6: the author named Bob has the unique id 12, yet
replacing the removed id 1 by the canonical id 2 inside the element 12
turns every reference to Bob into 22. -/
def c6cexBatch : Batches :=
  ⟨[⟨0, "1", "Alice", 5, "s"⟩, ⟨1, "2", "Alice", 9, "s"⟩, ⟨2, "12", "Bob", 3, "s"⟩],
   [⟨"p1", ["12"], [], 2020, "d"⟩], []⟩

/-- Result of reconciliation on c6cexBatch. -/
def c6cexOut : Batches :=
  ⟨[⟨1, "2", "Alice", 9, "s"⟩, ⟨2, "12", "Bob", 3, "s"⟩],
   [⟨"p1", ["22"], [], 2020, "d"⟩], []⟩

/-- Scenario batch for the amended claim C6: Bob has id 7, which no removed
id occurs inside, so references to Bob survive unchanged. -/
def c6amBatch : Batches :=
  ⟨[⟨0, "1", "Alice", 5, "s"⟩, ⟨1, "2", "Alice", 9, "s"⟩, ⟨2, "7", "Bob", 3, "s"⟩],
   [⟨"p1", ["7"], [], 2020, "d"⟩], [⟨"q1", ["7"], [], 2021, "e"⟩]⟩

/-- Result of reconciliation on c6amBatch. -/
def c6amOut : Batches :=
  ⟨[⟨1, "2", "Alice", 9, "s"⟩, ⟨2, "7", "Bob", 3, "s"⟩],
   [⟨"p1", ["7"], [], 2020, "d"⟩], [⟨"q1", ["7"], [], 2021, "e"⟩]⟩

/-- A duplicated full name containing an adjacent pair of single quotes:
the interpolated expression parses by implicit string concatenation and
compares full_name against OBrien instead. -/
def qqName : String := ⟨['O', squote, squote, 'B', 'r', 'i', 'e', 'n']⟩

/-- Batch on which the doubled-quote name completes and corrupts the data:
the collision group carries the doubled-quote name, while a third,
uniquely named author is the one the reinterpreted query selects. -/
def cqBatch : Batches :=
  ⟨[⟨0, "10", qqName, 5, "s"⟩, ⟨1, "11", qqName, 9, "s"⟩,
    ⟨2, "12", "OBrien", 3, "s"⟩], [], []⟩

/-- Result of reconciling cqBatch: the run completes, the collision group
is untouched, and the uniquely named OBrien row has been deleted. -/
def cqOut : Batches :=
  ⟨[⟨0, "10", qqName, 5, "s"⟩, ⟨1, "11", qqName, 9, "s"⟩], [], []⟩

/-- Topic batch used to exercise the topic filter. -/
def c7topics : List TopicRow := [⟨"1", "ta"⟩, ⟨"2", "tb"⟩]

/-- Publication batch used to exercise the topic filter. -/
def c7pubs : List PubRow := [⟨"p1", [], ["1"], 2020, "d"⟩]

theorem beginsWith_refl (l : List Char) : beginsWith l l = true := by
  induction l with
  | nil => rfl
  | cons c cs ih => simp [beginsWith, ih]

theorem replaceChars_nil (pat rep : List Char) (fuel : Nat) :
    replaceChars pat rep fuel [] = [] := by
  cases fuel <;> rfl

theorem replaceChars_self (pat rep : List Char) (h : pat ≠ []) (fuel : Nat)
    (hf : 1 ≤ fuel) : replaceChars pat rep fuel pat = rep := by
  cases pat with
  | nil => exact absurd rfl h
  | cons c cs =>
    cases fuel with
    | zero => omega
    | succ f =>
      simp only [replaceChars, beginsWith_refl, List.isEmpty_cons, Bool.not_false,
        Bool.and_true, Bool.and_self, if_pos]
      rw [List.drop_length, replaceChars_nil, List.append_nil]

theorem pyReplace_self (pat rep : String) : pyReplace pat pat rep = rep := by
  unfold pyReplace
  by_cases h : pat.data.isEmpty
  · rw [if_pos h]
    rw [List.isEmpty_iff] at h
    simp [h]
  · rw [if_neg h]
    have hne : pat.data ≠ [] := by simpa [List.isEmpty_iff] using h
    rw [replaceChars_self pat.data rep.data hne _ (List.length_pos.mpr hne)]

theorem containsSub_nil_pat (s : List Char) : containsSub [] s = true := by
  cases s <;> simp [containsSub, beginsWith]

theorem containsSub_cons_false {pat : List Char} {c : Char} {cs : List Char}
    (h : containsSub pat (c :: cs) = false) :
    beginsWith pat (c :: cs) = false ∧ containsSub pat cs = false := by
  simpa [containsSub, Bool.or_eq_false_iff] using h

theorem replaceChars_of_not_sub (pat rep : List Char) :
    ∀ (fuel : Nat) (s : List Char), containsSub pat s = false →
      replaceChars pat rep fuel s = s := by
  intro fuel
  induction fuel with
  | zero => intro s _; cases s <;> rfl
  | succ f ih =>
    intro s hs
    cases s with
    | nil => rfl
    | cons c cs =>
      obtain ⟨h1, h2⟩ := containsSub_cons_false hs
      simp only [replaceChars, h1, Bool.false_and, if_neg Bool.false_ne_true]
      rw [ih cs h2]

theorem pyReplace_of_not_sub {s pat : String} (rep : String)
    (h : containsSub pat.data s.data = false) : pyReplace s pat rep = s := by
  unfold pyReplace
  by_cases he : pat.data.isEmpty
  · rw [List.isEmpty_iff] at he
    rw [he, containsSub_nil_pat] at h
    cases h
  · rw [if_neg he, replaceChars_of_not_sub pat.data rep.data _ _ h]

theorem rewriteAll_nil (y : String) : rewriteAll [] y = y := rfl

theorem rewriteAll_cons (pr : String × String) (prs : List (String × String))
    (y : String) : rewriteAll (pr :: prs) y = rewriteAll prs (pyReplace y pr.1 pr.2) := rfl

theorem rewriteAll_of_not_sub {prs : List (String × String)} {y : String}
    (h : ∀ pr ∈ prs, containsSub pr.1.data y.data = false) : rewriteAll prs y = y := by
  induction prs with
  | nil => rfl
  | cons pr prs ih =>
    rw [rewriteAll_cons, pyReplace_of_not_sub pr.2 (h pr (by simp)),
      ih (fun q hq => h q (by simp [hq]))]

theorem pickMax_cons_none {rs : List AuthorRow} {r : AuthorRow}
    (h : pickMax rs = none) : pickMax (r :: rs) = some r := by
  rw [pickMax, h]

theorem pickMax_cons_some {rs : List AuthorRow} {r m : AuthorRow}
    (h : pickMax rs = some m) :
    pickMax (r :: rs) = if m.h_index > r.h_index then some m else some r := by
  rw [pickMax, h]

theorem pickMinLast_cons_none {rs : List AuthorRow} {r : AuthorRow}
    (h : pickMinLast rs = none) : pickMinLast (r :: rs) = some r := by
  rw [pickMinLast, h]

theorem pickMinLast_cons_some {rs : List AuthorRow} {r m : AuthorRow}
    (h : pickMinLast rs = some m) :
    pickMinLast (r :: rs) = if r.h_index < m.h_index then some r else some m := by
  rw [pickMinLast, h]

theorem pickMax_eq_none {l : List AuthorRow} (h : pickMax l = none) : l = [] := by
  cases l with
  | nil => rfl
  | cons r rs =>
    cases hr : pickMax rs
    · rw [pickMax_cons_none hr] at h; cases h
    · rw [pickMax_cons_some hr] at h
      split at h <;> cases h

theorem pickMinLast_eq_none {l : List AuthorRow} (h : pickMinLast l = none) :
    l = [] := by
  cases l with
  | nil => rfl
  | cons r rs =>
    cases hr : pickMinLast rs
    · rw [pickMinLast_cons_none hr] at h; cases h
    · rw [pickMinLast_cons_some hr] at h
      split at h <;> cases h

theorem pickMax_mem : ∀ {l : List AuthorRow} {k : AuthorRow},
    pickMax l = some k → k ∈ l := by
  intro l
  induction l with
  | nil => intro k h; cases h
  | cons r rs ih =>
    intro k h
    cases hr : pickMax rs
    · rw [pickMax_cons_none hr] at h
      cases h; exact List.mem_cons_self _ _
    · rw [pickMax_cons_some hr] at h
      split at h
      · cases h; exact List.mem_cons_of_mem _ (ih hr)
      · cases h; exact List.mem_cons_self _ _

theorem pickMinLast_mem : ∀ {l : List AuthorRow} {m : AuthorRow},
    pickMinLast l = some m → m ∈ l := by
  intro l
  induction l with
  | nil => intro m h; cases h
  | cons r rs ih =>
    intro m h
    cases hr : pickMinLast rs
    · rw [pickMinLast_cons_none hr] at h
      cases h; exact List.mem_cons_self _ _
    · rw [pickMinLast_cons_some hr] at h
      split at h
      · cases h; exact List.mem_cons_self _ _
      · cases h; exact List.mem_cons_of_mem _ (ih hr)

theorem pickMax_le : ∀ {l : List AuthorRow} {k : AuthorRow},
    pickMax l = some k → ∀ x ∈ l, x.h_index ≤ k.h_index := by
  intro l
  induction l with
  | nil => intro k h; cases h
  | cons r rs ih =>
    intro k h x hx
    cases hr : pickMax rs
    · rw [pickMax_cons_none hr] at h
      cases h
      rcases List.mem_cons.mp hx with hxr | hxs
      · exact le_of_eq (by rw [hxr])
      · rw [pickMax_eq_none hr] at hxs; cases hxs
    · next m =>
      rw [pickMax_cons_some hr] at h
      split at h
      · next hgt =>
        cases h
        rcases List.mem_cons.mp hx with hxr | hxs
        · exact le_of_lt (by rw [hxr]; exact hgt)
        · exact ih hr x hxs
      · next hgt =>
        cases h
        rcases List.mem_cons.mp hx with hxr | hxs
        · exact le_of_eq (by rw [hxr])
        · exact le_trans (ih hr x hxs) (not_lt.mp hgt)

theorem pickMinLast_le : ∀ {l : List AuthorRow} {m : AuthorRow},
    pickMinLast l = some m → ∀ x ∈ l, m.h_index ≤ x.h_index := by
  intro l
  induction l with
  | nil => intro m h; cases h
  | cons r rs ih =>
    intro m h x hx
    cases hr : pickMinLast rs
    · rw [pickMinLast_cons_none hr] at h
      cases h
      rcases List.mem_cons.mp hx with hxr | hxs
      · exact le_of_eq (by rw [hxr])
      · rw [pickMinLast_eq_none hr] at hxs; cases hxs
    · next m2 =>
      rw [pickMinLast_cons_some hr] at h
      split at h
      · next hlt =>
        cases h
        rcases List.mem_cons.mp hx with hxr | hxs
        · exact le_of_eq (by rw [hxr])
        · exact le_of_lt (lt_of_lt_of_le hlt (ih hr x hxs))
      · next hlt =>
        cases h
        rcases List.mem_cons.mp hx with hxr | hxs
        · exact le_trans (not_lt.mp hlt) (le_of_eq (by rw [hxr]))
        · exact ih hr x hxs

theorem pickMax_append (l1 l2 : List AuthorRow) (k : AuthorRow)
    (h1 : ∀ x ∈ l1, x.h_index < k.h_index) (h2 : ∀ x ∈ l2, x.h_index ≤ k.h_index) :
    pickMax (l1 ++ k :: l2) = some k := by
  induction l1 with
  | nil =>
    cases hr : pickMax l2
    · exact pickMax_cons_none hr
    · next m =>
      rw [List.nil_append, pickMax_cons_some hr]
      rw [if_neg (not_lt.mpr (h2 m (pickMax_mem hr)))]
  | cons a t ih =>
    have hrest := ih (fun x hx => h1 x (List.mem_cons_of_mem _ hx))
    rw [List.cons_append, pickMax_cons_some hrest,
      if_pos (h1 a (List.mem_cons_self _ _))]

theorem pickMinLast_append (l1 l2 : List AuthorRow) (m : AuthorRow)
    (h1 : ∀ x ∈ l1, m.h_index ≤ x.h_index) (h2 : ∀ x ∈ l2, m.h_index < x.h_index) :
    pickMinLast (l1 ++ m :: l2) = some m := by
  induction l1 with
  | nil =>
    cases hr : pickMinLast l2
    · exact pickMinLast_cons_none hr
    · next m2 =>
      rw [List.nil_append, pickMinLast_cons_some hr]
      rw [if_pos (h2 m2 (pickMinLast_mem hr))]
  | cons a t ih =>
    have hrest := ih (fun x hx => h1 x (List.mem_cons_of_mem _ hx))
    rw [List.cons_append, pickMinLast_cons_some hrest,
      if_neg (not_lt.mpr (h1 a (List.mem_cons_self _ _)))]

theorem isFirstMax_pickMax {g : List AuthorRow} {k : AuthorRow}
    (h : isFirstMax g k) : pickMax g = some k := by
  obtain ⟨l1, l2, rfl, h1, h2⟩ := h
  exact pickMax_append l1 l2 k h1 h2

theorem isLastMin_pickMinLast {g : List AuthorRow} {m : AuthorRow}
    (h : isLastMin g m) : pickMinLast g = some m := by
  obtain ⟨l1, l2, rfl, h1, h2⟩ := h
  exact pickMinLast_append l1 l2 m h1 h2

theorem pickMinLast_isLastMin : ∀ {l : List AuthorRow} {m : AuthorRow},
    pickMinLast l = some m → isLastMin l m := by
  intro l
  induction l with
  | nil => intro m h; cases h
  | cons r rs ih =>
    intro m h
    cases hr : pickMinLast rs
    · rw [pickMinLast_cons_none hr] at h
      cases h
      exact ⟨[], [], by simp [pickMinLast_eq_none hr], by simp, by simp⟩
    · next m2 =>
      rw [pickMinLast_cons_some hr] at h
      split at h
      · next hlt =>
        cases h
        exact ⟨[], rs, rfl, by simp,
          fun x hx => lt_of_lt_of_le hlt (pickMinLast_le hr x hx)⟩
      · next hlt =>
        cases h
        obtain ⟨l1, l2, heq, hge, hlt2⟩ := ih hr
        exact ⟨r :: l1, l2, by rw [heq, List.cons_append], by
          intro x hx
          rcases List.mem_cons.mp hx with hxr | hxs
          · rw [hxr]; exact not_lt.mp hlt
          · exact hge x hxs, hlt2⟩

theorem pickMax_isFirstMax : ∀ {l : List AuthorRow} {k : AuthorRow},
    pickMax l = some k → isFirstMax l k := by
  intro l
  induction l with
  | nil => intro k h; cases h
  | cons r rs ih =>
    intro k h
    cases hr : pickMax rs
    · rw [pickMax_cons_none hr] at h
      cases h
      exact ⟨[], [], by simp [pickMax_eq_none hr], by simp, by simp⟩
    · next m =>
      rw [pickMax_cons_some hr] at h
      split at h
      · next hgt =>
        cases h
        obtain ⟨l1, l2, heq, hl1, hl2⟩ := ih hr
        exact ⟨r :: l1, l2, by rw [heq, List.cons_append], by
          intro x hx
          rcases List.mem_cons.mp hx with hxr | hxs
          · rw [hxr]; exact hgt
          · exact hl1 x hxs, hl2⟩
      · next hgt =>
        cases h
        exact ⟨[], rs, rfl, by simp,
          fun x hx => le_trans (pickMax_le hr x hx) (not_lt.mp hgt)⟩

theorem label_inj {authors : List AuthorRow} (hL : labelsNodup authors)
    {a b : AuthorRow} (ha : a ∈ authors) (hb : b ∈ authors)
    (h : a.label = b.label) : a = b :=
  List.inj_on_of_nodup_map hL ha hb h

theorem mem_nameGroup {authors : List AuthorRow} {n : String} {x : AuthorRow} :
    x ∈ nameGroup authors n ↔ x ∈ authors ∧ x.full_name = n := by
  simp [nameGroup, List.mem_filter]

theorem labelsNodup_filter {authors : List AuthorRow} (p : AuthorRow → Bool)
    (hL : labelsNodup authors) : labelsNodup (authors.filter p) :=
  List.Nodup.sublist (List.Sublist.map _ (List.filter_sublist authors)) hL

theorem labelsNodup_nameGroup {authors : List AuthorRow} {n : String}
    (hL : labelsNodup authors) : labelsNodup (nameGroup authors n) :=
  labelsNodup_filter _ hL

theorem selectPair_eq_some {authors : List AuthorRow} {n : String}
    {keep rem : AuthorRow} (h : selectPair authors n = some (keep, rem)) :
    pickMax (nameGroup authors n) = some keep ∧
      pickMinLast (nameGroup authors n) = some rem := by
  unfold selectPair at h
  cases h1 : pickMax (nameGroup authors n) <;> rw [h1] at h
  · cases h
  · cases h2 : pickMinLast (nameGroup authors n) <;> rw [h2] at h
    · cases h
    · cases h
      exact ⟨rfl, rfl⟩

theorem selectPair_rem_mem {authors : List AuthorRow} {n : String}
    {keep rem : AuthorRow} (h : selectPair authors n = some (keep, rem)) :
    rem ∈ authors ∧ rem.full_name = n :=
  mem_nameGroup.mp (pickMinLast_mem (selectPair_eq_some h).2)

theorem selectPair_keep_mem {authors : List AuthorRow} {n : String}
    {keep rem : AuthorRow} (h : selectPair authors n = some (keep, rem)) :
    keep ∈ authors ∧ keep.full_name = n :=
  mem_nameGroup.mp (pickMax_mem (selectPair_eq_some h).1)

theorem nameGroup_filter_other {authors : List AuthorRow} {rem : AuthorRow}
    {n2 : String} (hL : labelsNodup authors) (hrem : rem ∈ authors)
    (hname : rem.full_name ≠ n2) :
    nameGroup (authors.filter (fun r => r.label != rem.label)) n2 =
      nameGroup authors n2 := by
  unfold nameGroup
  rw [List.filter_filter]
  apply List.filter_congr
  intro a ha
  cases hn : (a.full_name == n2)
  · simp
  · have haname : a.full_name = n2 := by simpa using hn
    have : a.label ≠ rem.label := by
      intro heq
      exact hname (by rw [label_inj hL hrem ha heq.symm]; exact haname)
    simp [this]

theorem selectPair_filter_other {authors : List AuthorRow} {rem : AuthorRow}
    {n2 : String} (hL : labelsNodup authors) (hrem : rem ∈ authors)
    (hname : rem.full_name ≠ n2) :
    selectPair (authors.filter (fun r => r.label != rem.label)) n2 =
      selectPair authors n2 := by
  unfold selectPair
  rw [nameGroup_filter_other hL hrem hname]

theorem filterMap_congr_mem {α β : Type} {f g : α → Option β} :
    ∀ {l : List α}, (∀ a ∈ l, f a = g a) → l.filterMap f = l.filterMap g := by
  intro l
  induction l with
  | nil => intro _; rfl
  | cons a t ih =>
    intro h
    rw [List.filterMap_cons, List.filterMap_cons, h a (List.mem_cons_self _ _),
      ih (fun x hx => h x (List.mem_cons_of_mem _ hx))]

theorem stripQuotePairs_no_quote : ∀ {l : List Char},
    squote ∉ l → stripQuotePairs l = some l := by
  intro l
  induction l with
  | nil => intro _; rfl
  | cons c cs ih =>
    intro h
    have hc : ¬(c == squote) = true := by
      intro hcc
      rw [beq_iff_eq] at hcc
      exact h (by rw [hcc]; exact List.mem_cons_self _ _)
    rw [stripQuotePairs.eq_def]
    dsimp only
    rw [if_neg hc, ih (fun hm => h (List.mem_cons_of_mem _ hm))]
    rfl

theorem interp_plain {s : String} (h : plainName s = true) :
    interpName s = NameQuery.value s := by
  unfold plainName at h
  simp only [Bool.and_eq_true, Bool.not_eq_true'] at h
  obtain ⟨⟨⟨hq, hb⟩, hlf⟩, hcr⟩ := h
  unfold interpName
  rw [hb, if_neg Bool.false_ne_true]
  have hqm : squote ∉ s.data := by simpa using hq
  rw [List.count_eq_zero.mpr hqm, hlf, hcr, stripQuotePairs_no_quote hqm]
  rfl

theorem processName_ok {b : Batches} {n : String} {b1 : Batches}
    (h : processName b n = Except.ok b1) :
    ∃ v keep rem, interpName n = NameQuery.value v ∧
      selectPair b.authors v = some (keep, rem) ∧
      b1 = { authors := b.authors.filter (fun r => r.label != rem.label),
             publications := b.publications.map (rewritePub rem.author_id keep.author_id),
             incoming_publications :=
               b.incoming_publications.map (rewritePub rem.author_id keep.author_id) } := by
  unfold processName at h
  split at h
  · cases h
  · cases h
  · next v heq =>
    split at h
    · next keep rem hsel =>
      cases h
      exact ⟨v, keep, rem, heq, hsel, rfl⟩
    · cases h

theorem reconcile_cons_ok {n : String} {ns : List String} {b b1 : Batches}
    (hp : processName b n = Except.ok b1) :
    reconcile (n :: ns) b = reconcile ns b1 := by
  rw [reconcile, hp]

theorem reconcile_cons_err {n : String} {ns : List String} {b : Batches}
    {e : String} (hp : processName b n = Except.error e) :
    reconcile (n :: ns) b = Except.error e := by
  rw [reconcile, hp]

theorem removedLabels_cons {authors : List AuthorRow} {n : String}
    {ns : List String} {keep rem : AuthorRow}
    (hsel : selectPair authors n = some (keep, rem)) :
    removedLabels authors (n :: ns) = rem.label :: removedLabels authors ns := by
  simp [removedLabels, List.filterMap_cons, hsel]

theorem pairsOf_cons {authors : List AuthorRow} {n : String}
    {ns : List String} {keep rem : AuthorRow}
    (hsel : selectPair authors n = some (keep, rem)) :
    pairsOf authors (n :: ns) =
      (rem.author_id, keep.author_id) :: pairsOf authors ns := by
  simp [pairsOf, List.filterMap_cons, hsel]

theorem mem_cons_label (x y : Nat) (L : List Nat) :
    ((!decide (x ∈ L)) && (x != y)) = !decide (x ∈ y :: L) := by
  by_cases h1 : x = y <;> by_cases h2 : x ∈ L <;> simp [h1, h2]

theorem rewritePub_then (remId keepId : String) (prs : List (String × String))
    (p : PubRow) :
    { rewritePub remId keepId p with
        author_list := (rewritePub remId keepId p).author_list.map (rewriteAll prs) } =
      { p with author_list := p.author_list.map (rewriteAll ((remId, keepId) :: prs)) } := by
  unfold rewritePub
  rw [List.map_map]
  rfl

theorem reconcile_ok_spec : ∀ (names : List String) (b bo : Batches),
    labelsNodup b.authors → names.Nodup → (∀ n ∈ names, plainName n = true) →
    reconcile names b = Except.ok bo →
    bo.authors = b.authors.filter
        (fun r => !decide (r.label ∈ removedLabels b.authors names)) ∧
    bo.publications = b.publications.map
        (fun p => { p with
          author_list := p.author_list.map (rewriteAll (pairsOf b.authors names)) }) ∧
    bo.incoming_publications = b.incoming_publications.map
        (fun p => { p with
          author_list := p.author_list.map (rewriteAll (pairsOf b.authors names)) }) := by
  intro names
  induction names with
  | nil =>
    intro b bo _ _ _ h
    cases h
    refine ⟨?_, ?_, ?_⟩
    · simp [removedLabels]
    · symm
      apply List.map_id''
      intro p
      have h2 : rewriteAll (pairsOf b.authors []) = fun y => y := rfl
      rw [h2, List.map_id']
    · symm
      apply List.map_id''
      intro p
      have h2 : rewriteAll (pairsOf b.authors []) = fun y => y := rfl
      rw [h2, List.map_id']
  | cons n ns ih =>
    intro b bo hL hN hplain h
    cases hp : processName b n with
    | error e => rw [reconcile_cons_err hp] at h; cases h
    | ok b1 =>
      rw [reconcile_cons_ok hp] at h
      obtain ⟨v, keep, rem, hiv, hsel, hb1⟩ := processName_ok hp
      rw [interp_plain (hplain n (List.mem_cons_self _ _))] at hiv
      have hvn : v = n := (NameQuery.value.inj hiv).symm
      rw [hvn] at hsel
      subst hb1
      have hremmem : rem ∈ b.authors := (selectPair_rem_mem hsel).1
      have hremname : rem.full_name = n := (selectPair_rem_mem hsel).2
      have hnotin : n ∉ ns := (List.nodup_cons.mp hN).1
      have hNns : ns.Nodup := (List.nodup_cons.mp hN).2
      have hL1 : labelsNodup (b.authors.filter (fun r => r.label != rem.label)) :=
        labelsNodup_filter _ hL
      obtain ⟨ihA, ihP, ihI⟩ := ih _ bo hL1 hNns
        (fun n2 h2 => hplain n2 (List.mem_cons_of_mem _ h2)) h
      have hsp : ∀ n2 ∈ ns,
          selectPair (b.authors.filter (fun r => r.label != rem.label)) n2 =
            selectPair b.authors n2 := by
        intro n2 hn2
        apply selectPair_filter_other hL hremmem
        rw [hremname]
        intro hcontra
        exact hnotin (hcontra ▸ hn2)
      have hrl : removedLabels (b.authors.filter (fun r => r.label != rem.label)) ns =
          removedLabels b.authors ns :=
        filterMap_congr_mem (fun n2 hn2 => by rw [hsp n2 hn2])
      have hpr : pairsOf (b.authors.filter (fun r => r.label != rem.label)) ns =
          pairsOf b.authors ns :=
        filterMap_congr_mem (fun n2 hn2 => by rw [hsp n2 hn2])
      refine ⟨?_, ?_, ?_⟩
      · rw [ihA, hrl, List.filter_filter, removedLabels_cons hsel]
        apply List.filter_congr
        intro a _
        exact mem_cons_label a.label rem.label (removedLabels b.authors ns)
      · rw [ihP, hpr, List.map_map, pairsOf_cons hsel]
        apply List.map_congr_left
        intro p _
        exact rewritePub_then rem.author_id keep.author_id (pairsOf b.authors ns) p
      · rw [ihI, hpr, List.map_map, pairsOf_cons hsel]
        apply List.map_congr_left
        intro p _
        exact rewritePub_then rem.author_id keep.author_id (pairsOf b.authors ns) p

theorem mem_removedLabels {authors : List AuthorRow} {names : List String}
    {x : Nat} :
    x ∈ removedLabels authors names ↔
      ∃ n ∈ names, ∃ kr, selectPair authors n = some kr ∧ kr.2.label = x := by
  simp [removedLabels, List.mem_filterMap, Option.map_eq_some']

theorem pickMax_ne_pickMinLast {g : List AuthorRow} {k m : AuthorRow}
    (hlen : 2 ≤ g.length) (hnd : (g.map (fun r => r.label)).Nodup)
    (hk : pickMax g = some k) (hm : pickMinLast g = some m) :
    k.label ≠ m.label := by
  intro hlab
  have hkg : k ∈ g := pickMax_mem hk
  have hmg : m ∈ g := pickMinLast_mem hm
  have hkm : k = m := List.inj_on_of_nodup_map hnd hkg hmg hlab
  subst hkm
  have hall : ∀ x ∈ g, x.h_index = k.h_index := fun x hx =>
    le_antisymm (pickMax_le hk x hx) (pickMinLast_le hm x hx)
  obtain ⟨l1, l2, heq1, hl1, _⟩ := pickMax_isFirstMax hk
  obtain ⟨l1m, l2m, heq2, _, hl2m⟩ := pickMinLast_isLastMin hm
  have hl1nil : l1 = [] := by
    cases l1 with
    | nil => rfl
    | cons a t =>
      exfalso
      have ha : a ∈ g := by
        rw [heq1]; exact List.mem_append_left _ (List.mem_cons_self _ _)
      exact absurd (hall a ha) (ne_of_lt (hl1 a (List.mem_cons_self _ _)))
  have hl2mnil : l2m = [] := by
    cases l2m with
    | nil => rfl
    | cons a t =>
      exfalso
      have ha : a ∈ g := by
        rw [heq2]
        exact List.mem_append_right _ (List.mem_cons_of_mem _ (List.mem_cons_self _ _))
      exact absurd (hall a ha) (ne_of_gt (hl2m a (List.mem_cons_self _ _)))
  rw [hl1nil] at heq1
  simp only [List.nil_append] at heq1
  rw [hl2mnil] at heq2
  cases l1m with
  | nil =>
    rw [heq2] at hlen
    simp at hlen
  | cons a t =>
    have h12 : k :: l2 = a :: (t ++ [k]) := by
      rw [← heq1, heq2, List.cons_append]
    have hl2eq : l2 = t ++ [k] := (List.cons_eq_cons.mp h12).2
    have hkin : k ∈ l2 := by
      rw [hl2eq]; exact List.mem_append_right _ (List.mem_cons_self _ _)
    rw [heq1] at hnd
    simp only [List.map_cons, List.nodup_cons] at hnd
    exact hnd.1 (List.mem_map_of_mem _ hkin)

theorem length_filter_remove : ∀ {l : List AuthorRow} {x : AuthorRow},
    (l.map (fun r => r.label)).Nodup → x ∈ l →
    (l.filter (fun r => r.label != x.label)).length + 1 = l.length := by
  intro l
  induction l with
  | nil => intro x _ hx; cases hx
  | cons a t ih =>
    intro x hnd hx
    simp only [List.map_cons, List.nodup_cons] at hnd
    rw [List.filter_cons]
    by_cases ha : a.label = x.label
    · rw [if_neg (by simp [ha])]
      have htt : t.filter (fun r => r.label != x.label) = t := by
        apply List.filter_eq_self.mpr
        intro y hy
        have hyl : y.label ≠ x.label := by
          intro hcon
          apply hnd.1
          rw [ha, ← hcon]
          exact List.mem_map_of_mem _ hy
        simp [hyl]
      rw [htt, List.length_cons]
    · rw [if_pos (by simp [ha])]
      have hxt : x ∈ t := by
        rcases List.mem_cons.mp hx with h | h
        · exact absurd (congrArg AuthorRow.label h).symm ha
        · exact h
      have hih := ih hnd.2 hxt
      simp only [List.length_cons]
      omega

theorem nameGroup_filter_comm (authors : List AuthorRow) (p : AuthorRow → Bool)
    (n : String) :
    nameGroup (authors.filter p) n = (nameGroup authors n).filter p := by
  unfold nameGroup
  rw [List.filter_filter, List.filter_filter]
  apply List.filter_congr
  intro a _
  exact Bool.and_comm _ _

theorem selectPair_eq_none {authors : List AuthorRow} {n : String}
    (h : selectPair authors n = none) : nameGroup authors n = [] := by
  unfold selectPair at h
  cases h1 : pickMax (nameGroup authors n) <;> rw [h1] at h
  · exact pickMax_eq_none h1
  · cases h2 : pickMinLast (nameGroup authors n) <;> rw [h2] at h
    · exact pickMinLast_eq_none h2
    · cases h

theorem removed_row_eq {authors : List AuthorRow} {names : List String}
    {x : AuthorRow} (hL : labelsNodup authors) (hx : x ∈ authors)
    (hmem : x.label ∈ removedLabels authors names) :
    ∃ n ∈ names, ∃ keep, selectPair authors n = some (keep, x) := by
  obtain ⟨n, hn, kr, hsel, hlab⟩ := mem_removedLabels.mp hmem
  have hr := selectPair_rem_mem hsel
  have hkr : kr.2 = x := label_inj hL hr.1 hx hlab
  exact ⟨n, hn, kr.1, by rw [← hkr]; exact hsel⟩

theorem colliding_mem_enum {authors : List AuthorRow} {names : List String}
    (he : collidingEnum authors names) {n : String}
    (hc : colliding authors n = true) : n ∈ names := by
  have hlen : 2 ≤ (nameGroup authors n).length := by simpa [colliding] using hc
  have hne : nameGroup authors n ≠ [] := by
    intro hnil; rw [hnil] at hlen; simp at hlen
  obtain ⟨r, hr⟩ := List.exists_mem_of_ne_nil _ hne
  have hmem := mem_nameGroup.mp hr
  have hin := he.2.2 r hmem.1 (by rw [hmem.2]; exact hc)
  rw [hmem.2] at hin
  exact hin

theorem names_plain {authors : List AuthorRow} {names : List String}
    (he : collidingEnum authors names)
    (hp : ∀ r ∈ authors, plainName r.full_name = true) :
    ∀ n ∈ names, plainName n = true := by
  intro n hn
  have hc := he.2.1 n hn
  have hlen : 2 ≤ (nameGroup authors n).length := by simpa [colliding] using hc
  have hne : nameGroup authors n ≠ [] := by
    intro hnil; rw [hnil] at hlen; simp at hlen
  obtain ⟨r, hr⟩ := List.exists_mem_of_ne_nil _ hne
  have hm := mem_nameGroup.mp hr
  rw [← hm.2]
  exact hp r hm.1

theorem reconcile_shape : ∀ (names : List String) (b bo : Batches),
    reconcile names b = Except.ok bo →
    bo.publications.map (fun p => p.author_list.length) =
      b.publications.map (fun p => p.author_list.length) ∧
    bo.incoming_publications.map (fun p => p.author_list.length) =
      b.incoming_publications.map (fun p => p.author_list.length) := by
  intro names
  induction names with
  | nil =>
    intro b bo h
    cases h
    exact ⟨rfl, rfl⟩
  | cons n ns ih =>
    intro b bo h
    cases hp : processName b n with
    | error e => rw [reconcile_cons_err hp] at h; cases h
    | ok b1 =>
      rw [reconcile_cons_ok hp] at h
      obtain ⟨v, keep, rem, hiv, hsel, hb1⟩ := processName_ok hp
      subst hb1
      obtain ⟨ih1, ih2⟩ := ih _ bo h
      constructor
      · rw [ih1, List.map_map]
        apply List.map_congr_left
        intro p _
        simp [Function.comp, rewritePub, List.length_map]
      · rw [ih2, List.map_map]
        apply List.map_congr_left
        intro p _
        simp [Function.comp, rewritePub, List.length_map]

/-- Claim C2 (amended): provided every full_name is plain, so that each
interpolated query expression denotes the name itself, the record of every
collision group with the maximum h_index, breaking ties by taking the
first such record in original ingestion order, is present in the output
author batch, and the single removed record, the last minimum in
ingestion order, is absent from it.  Without the proviso a doubled-quote
name reinterprets the lookup and the group's last minimum survives. -/
theorem C2_canonical_survival (b bo : Batches) (names : List String)
    (hL : labelsNodup b.authors)
    (hplain : ∀ r ∈ b.authors, plainName r.full_name = true)
    (he : collidingEnum b.authors names)
    (hok : reconcile names b = Except.ok bo) :
    ∀ n ∈ names,
      (∀ k, isFirstMax (nameGroup b.authors n) k → k ∈ bo.authors) ∧
      (∀ m, isLastMin (nameGroup b.authors n) m → m ∉ bo.authors) := by
  have hnp := names_plain he hplain
  obtain ⟨hN, hcoll, _⟩ := he
  have hchar := (reconcile_ok_spec names b bo hL hN hnp hok).1
  intro n hn
  constructor
  · intro k hk
    have hkmax : pickMax (nameGroup b.authors n) = some k := isFirstMax_pickMax hk
    have hkmem := mem_nameGroup.mp (pickMax_mem hkmax)
    cases hmin : pickMinLast (nameGroup b.authors n) with
    | none =>
      exfalso
      rw [pickMinLast_eq_none hmin] at hkmax
      cases hkmax
    | some m =>
      have hsel : selectPair b.authors n = some (k, m) := by
        unfold selectPair; rw [hkmax, hmin]
      rw [hchar]
      apply List.mem_filter.mpr
      refine ⟨hkmem.1, ?_⟩
      simp only [Bool.not_eq_true', decide_eq_false_iff_not]
      intro hmem
      obtain ⟨n2, hn2, keep2, hsel2⟩ := removed_row_eq hL hkmem.1 hmem
      have hkname := (selectPair_rem_mem hsel2).2
      have hn2n : n2 = n := by rw [← hkname, hkmem.2]
      rw [hn2n, hsel] at hsel2
      have hpair := Option.some.inj hsel2
      have hmk : m = k := congrArg Prod.snd hpair
      have hlen : 2 ≤ (nameGroup b.authors n).length := by
        simpa [colliding] using hcoll n hn
      exact pickMax_ne_pickMinLast hlen (labelsNodup_nameGroup hL) hkmax hmin
        (by rw [hmk])
  · intro m hm
    have hmmin : pickMinLast (nameGroup b.authors n) = some m :=
      isLastMin_pickMinLast hm
    cases hmax : pickMax (nameGroup b.authors n) with
    | none =>
      exfalso
      rw [pickMax_eq_none hmax] at hmmin
      cases hmmin
    | some k =>
      have hsel : selectPair b.authors n = some (k, m) := by
        unfold selectPair; rw [hmax, hmmin]
      intro hmem_out
      rw [hchar] at hmem_out
      have hflt := (List.mem_filter.mp hmem_out).2
      simp only [Bool.not_eq_true', decide_eq_false_iff_not] at hflt
      exact hflt (mem_removedLabels.mpr ⟨n, hn, (k, m), hsel, rfl⟩)

/-- Claim C3 (amended): provided every full_name is plain, every author
record removed by the reconciliation pass is one with the minimum h_index
of its collision group, and among min-tied records it is the
last-appearing one in original ingestion order.  Without the proviso a
doubled-quote name makes the pass delete an author outside every
collision group. -/
theorem C3_removed_is_last_min (b bo : Batches) (names : List String)
    (hL : labelsNodup b.authors)
    (hplain : ∀ r ∈ b.authors, plainName r.full_name = true)
    (he : collidingEnum b.authors names)
    (hok : reconcile names b = Except.ok bo) :
    ∀ x ∈ b.authors, x ∉ bo.authors →
      x.full_name ∈ names ∧ isLastMin (nameGroup b.authors x.full_name) x := by
  have hnp := names_plain he hplain
  obtain ⟨hN, _, _⟩ := he
  have hchar := (reconcile_ok_spec names b bo hL hN hnp hok).1
  intro x hx hnot
  have hmem : x.label ∈ removedLabels b.authors names := by
    by_contra hmem
    apply hnot
    rw [hchar]
    exact List.mem_filter.mpr ⟨hx, by simp [hmem]⟩
  obtain ⟨n, hn, keep, hsel⟩ := removed_row_eq hL hx hmem
  have hxname := (selectPair_rem_mem hsel).2
  constructor
  · rw [hxname]; exact hn
  · rw [hxname]
    exact pickMinLast_isLastMin (selectPair_eq_some hsel).2

/-- Claim C4 (amended): provided every full_name is plain, each collision
group loses exactly one author record per reconciliation pass, also when
the group has three or more members.  Without the proviso a doubled-quote
group is processed yet loses no record at all. -/
theorem C4_single_removal_per_group (b bo : Batches) (names : List String)
    (hL : labelsNodup b.authors)
    (hplain : ∀ r ∈ b.authors, plainName r.full_name = true)
    (he : collidingEnum b.authors names)
    (hok : reconcile names b = Except.ok bo) :
    ∀ n ∈ names,
      (nameGroup bo.authors n).length + 1 = (nameGroup b.authors n).length := by
  have hnp := names_plain he hplain
  obtain ⟨hN, hcoll, _⟩ := he
  have hchar := (reconcile_ok_spec names b bo hL hN hnp hok).1
  intro n hn
  have hlen : 2 ≤ (nameGroup b.authors n).length := by
    simpa [colliding] using hcoll n hn
  rw [hchar, nameGroup_filter_comm]
  cases hsel : selectPair b.authors n with
  | none =>
    exfalso
    rw [selectPair_eq_none hsel] at hlen
    simp at hlen
  | some kr =>
    have heq : (nameGroup b.authors n).filter
          (fun r => !decide (r.label ∈ removedLabels b.authors names)) =
        (nameGroup b.authors n).filter (fun r => r.label != kr.2.label) := by
      apply List.filter_congr
      intro a ha
      have hamem := (mem_nameGroup.mp ha).1
      have haname := (mem_nameGroup.mp ha).2
      by_cases hal : a.label = kr.2.label
      · have hin : kr.2.label ∈ removedLabels b.authors names :=
          mem_removedLabels.mpr ⟨n, hn, kr, hsel, rfl⟩
        simp [hal, hin]
      · have hout : a.label ∉ removedLabels b.authors names := by
          intro hmem
          obtain ⟨n2, hn2, keep2, hsel2⟩ := removed_row_eq hL hamem hmem
          have haname2 := (selectPair_rem_mem hsel2).2
          have hn2n : n2 = n := by rw [← haname2, haname]
          rw [hn2n, hsel] at hsel2
          have hpair := Option.some.inj hsel2
          exact hal (by rw [congrArg Prod.snd hpair])
        simp [hout, hal]
    rw [heq]
    exact length_filter_remove (labelsNodup_nameGroup hL)
      (pickMinLast_mem (selectPair_eq_some hsel).2)

/-- Claim C5 (amended): provided every full_name is plain, the surviving
author batch is independent of the order in which the collision groups
are processed.  The publication batches are not: the element-wise rewrite
is a substring replace, so a later group can rewrite material produced by
an earlier one.  Without the proviso an injected name can make two
iterated names target overlapping rows. -/
theorem C5_amended_authors_order_independent (b b1 b2 : Batches)
    (ns1 ns2 : List String) (hL : labelsNodup b.authors)
    (hplain : ∀ r ∈ b.authors, plainName r.full_name = true)
    (he1 : collidingEnum b.authors ns1) (he2 : collidingEnum b.authors ns2)
    (h1 : reconcile ns1 b = Except.ok b1) (h2 : reconcile ns2 b = Except.ok b2) :
    b1.authors = b2.authors := by
  rw [(reconcile_ok_spec ns1 b b1 hL he1.1 (names_plain he1 hplain) h1).1,
    (reconcile_ok_spec ns2 b b2 hL he2.1 (names_plain he2 hplain) h2).1]
  apply List.filter_congr
  intro a _
  have hmemiff : ∀ x : Nat,
      x ∈ removedLabels b.authors ns1 ↔ x ∈ removedLabels b.authors ns2 := by
    intro x
    rw [mem_removedLabels, mem_removedLabels]
    constructor
    · rintro ⟨n, hn, kr, hsel, hlab⟩
      exact ⟨n, colliding_mem_enum he2 (he1.2.1 n hn), kr, hsel, hlab⟩
    · rintro ⟨n, hn, kr, hsel, hlab⟩
      exact ⟨n, colliding_mem_enum he1 (he2.2.1 n hn), kr, hsel, hlab⟩
  by_cases hmem : a.label ∈ removedLabels b.authors ns1
  · simp [hmem, (hmemiff a.label).mp hmem]
  · have hmem2 : a.label ∉ removedLabels b.authors ns2 :=
      fun hc => hmem ((hmemiff a.label).mpr hc)
    simp [hmem, hmem2]

/-- Claim C1 (amended): after reconciliation the length and positional
order of every author_list are unchanged; within one loop iteration every
element exactly equal to that iteration's removed id, the id of the row
the interpreted query actually selects for removal, is rewritten to that
iteration's canonical id.  Because the rewrite is a substring replace, a
final element may nevertheless still contain, or even equal, a removed id,
and later iterations may rewrite such elements further. -/
theorem C1_amended_rewrite (b bo : Batches) (names : List String)
    (_hL : labelsNodup b.authors) (_hN : names.Nodup)
    (hok : reconcile names b = Except.ok bo) :
    (bo.publications.map (fun p => p.author_list.length) =
        b.publications.map (fun p => p.author_list.length) ∧
      bo.incoming_publications.map (fun p => p.author_list.length) =
        b.incoming_publications.map (fun p => p.author_list.length)) ∧
    ∀ (bb bb1 : Batches) (n v : String) (keep rem : AuthorRow),
      processName bb n = Except.ok bb1 →
      interpName n = NameQuery.value v →
      selectPair bb.authors v = some (keep, rem) →
      ∀ i j, pubElem bb.publications i j = some rem.author_id →
        pubElem bb1.publications i j = some keep.author_id := by
  refine ⟨reconcile_shape names b bo hok, ?_⟩
  intro bb bb1 n v keep rem hp hiv hsel i j hel
  obtain ⟨v2, keep2, rem2, hiv2, hsel2, hbb1⟩ := processName_ok hp
  rw [hiv] at hiv2
  have hv : v = v2 := NameQuery.value.inj hiv2
  rw [← hv] at hsel2
  rw [hsel] at hsel2
  have hpair := Option.some.inj hsel2
  have hkeep : keep = keep2 := congrArg Prod.fst hpair
  have hrem : rem = rem2 := congrArg Prod.snd hpair
  subst hkeep
  subst hrem
  subst hbb1
  unfold pubElem at hel ⊢
  cases hpi : bb.publications[i]? with
  | none => rw [hpi] at hel; cases hel
  | some p =>
    rw [hpi] at hel
    simp only [Option.some_bind] at hel
    show ((bb.publications.map
      (rewritePub rem.author_id keep.author_id))[i]?).bind
        (fun q => q.author_list[j]?) = some keep.author_id
    rw [List.getElem?_map, hpi]
    simp only [Option.map_some', Option.some_bind]
    unfold rewritePub
    show ((p.author_list.map (fun y => pyReplace y rem.author_id keep.author_id))[j]?) =
      some keep.author_id
    rw [List.getElem?_map, hel]
    simp [pyReplace_self]

/-- Claim C6 (amended): provided every full_name is plain, an author whose
full name is unique keeps its record in the output author batch; and an
occurrence of its id in an author_list is left unchanged provided no
removal-target id occurs as a substring of that id.  Without the first
proviso a doubled-quote name can delete a uniquely named author; without
the second the substring replace can corrupt the reference, as the
counterexample shows. -/
theorem C6_amended_no_collision (b bo : Batches) (names : List String)
    (r : AuthorRow) (hL : labelsNodup b.authors)
    (hplain : ∀ rr ∈ b.authors, plainName rr.full_name = true)
    (he : collidingEnum b.authors names)
    (hok : reconcile names b = Except.ok bo)
    (hr : r ∈ b.authors) (huniq : (nameGroup b.authors r.full_name).length = 1) :
    r ∈ bo.authors ∧
      ((∀ pr ∈ pairsOf b.authors names,
          containsSub pr.1.data r.author_id.data = false) →
        (∀ i j, pubElem b.publications i j = some r.author_id →
          pubElem bo.publications i j = some r.author_id) ∧
        (∀ i j, pubElem b.incoming_publications i j = some r.author_id →
          pubElem bo.incoming_publications i j = some r.author_id)) := by
  have hchar := reconcile_ok_spec names b bo hL he.1 (names_plain he hplain) hok
  constructor
  · rw [hchar.1]
    apply List.mem_filter.mpr
    refine ⟨hr, ?_⟩
    simp only [Bool.not_eq_true', decide_eq_false_iff_not]
    intro hmem
    obtain ⟨n, hn, keep, hsel⟩ := removed_row_eq hL hr hmem
    have hrname := (selectPair_rem_mem hsel).2
    have hlen : 2 ≤ (nameGroup b.authors n).length := by
      simpa [colliding] using he.2.1 n hn
    rw [← hrname] at hlen
    omega
  · intro hsub
    constructor
    · intro i j hel
      rw [hchar.2.1]
      unfold pubElem at hel ⊢
      cases hpi : b.publications[i]? with
      | none => rw [hpi] at hel; cases hel
      | some p =>
        rw [hpi] at hel
        simp only [Option.some_bind] at hel
        rw [List.getElem?_map, hpi]
        simp only [Option.map_some', Option.some_bind]
        show ((p.author_list.map (rewriteAll (pairsOf b.authors names)))[j]?) =
          some r.author_id
        rw [List.getElem?_map, hel]
        simp [rewriteAll_of_not_sub hsub]
    · intro i j hel
      rw [hchar.2.2]
      unfold pubElem at hel ⊢
      cases hpi : b.incoming_publications[i]? with
      | none => rw [hpi] at hel; cases hel
      | some p =>
        rw [hpi] at hel
        simp only [Option.some_bind] at hel
        rw [List.getElem?_map, hpi]
        simp only [Option.map_some', Option.some_bind]
        show ((p.author_list.map (rewriteAll (pairsOf b.authors names)))[j]?) =
          some r.author_id
        rw [List.getElem?_map, hel]
        simp [rewriteAll_of_not_sub hsub]

/-- Claim C7: the topic filter returns exactly the topics referenced by at
least one publication or incoming publication, drops exactly the
unreferenced ones, and does not mutate any record. -/
theorem C7_topic_filter_sound (topics : List TopicRow) (pubs inc : List PubRow) :
    (∀ t ∈ filterTopics topics pubs inc,
        t ∈ topics ∧ ∃ p, (p ∈ pubs ∨ p ∈ inc) ∧ t.topic_id ∈ p.topic_list) ∧
    (∀ t ∈ topics, t ∉ filterTopics topics pubs inc →
        ∀ p, (p ∈ pubs ∨ p ∈ inc) → t.topic_id ∉ p.topic_list) ∧
    List.Sublist (filterTopics topics pubs inc) topics := by
  refine ⟨?_, ?_, List.filter_sublist _⟩
  · intro t ht
    have hmem := List.mem_filter.mp ht
    refine ⟨hmem.1, ?_⟩
    have hid : t.topic_id ∈ pubTopicIds pubs inc := by simpa using hmem.2
    unfold pubTopicIds at hid
    rw [List.mem_flatten] at hid
    obtain ⟨l, hl, hmem2⟩ := hid
    rw [List.mem_map] at hl
    obtain ⟨p, hp, rfl⟩ := hl
    exact ⟨p, by simpa using List.mem_append.mp hp, hmem2⟩
  · intro t ht hnot p hp hmem
    apply hnot
    apply List.mem_filter.mpr
    refine ⟨ht, ?_⟩
    simp only [decide_eq_true_eq]
    unfold pubTopicIds
    rw [List.mem_flatten]
    exact ⟨p.topic_list,
      List.mem_map_of_mem _ (List.mem_append.mpr (by simpa using hp)), hmem⟩

/-- Claim C8: a query through an initialized connection never lets the
session or run exception escape: it returns an absent result and logs the
failure, and any session that was opened is closed on every exit path. -/
theorem C8_query_error_handling (driverReady : Bool) (env : DriverEnv)
    (h : driverReady = true) :
    ∃ out, runQuery driverReady env = Except.ok out ∧
      ((env.sessionOpens = false ∨ env.runSucceeds = false) →
        out.response = none ∧ out.failureLogged = true) ∧
      (out.sessionOpened = true → out.sessionClosed = true) := by
  subst h
  cases ho : env.sessionOpens
  · exact ⟨⟨none, true, false, false⟩, by simp [runQuery, ho],
      fun _ => ⟨rfl, rfl⟩, fun hc => absurd hc (by decide)⟩
  · cases hrun : env.runSucceeds
    · exact ⟨⟨none, true, true, true⟩, by simp [runQuery, ho, hrun],
        fun _ => ⟨rfl, rfl⟩, fun _ => rfl⟩
    · refine ⟨⟨some env.runRows, false, true, true⟩, by simp [runQuery, ho, hrun],
        ?_, fun _ => rfl⟩
      rintro (hc | hc) <;> exact absurd hc (by decide)

/-- Claim C9: a topic row whose name field is missing is emitted with its
name equal to the sentinel string, at the same position and with the same
topic_id. -/
theorem C9_missing_name_filled (ts : List RawTopicRow) (i : Nat)
    (t : RawTopicRow) (h1 : ts[i]? = some t) (h2 : t.name = none) :
    ∃ u, (fillTopicNames ts)[i]? = some u ∧ u.topic_id = t.topic_id ∧
      u.name = "Not Available" := by
  refine ⟨fillTopicName t, ?_, rfl, ?_⟩
  · unfold fillTopicNames
    rw [List.getElem?_map, h1]
    rfl
  · unfold fillTopicName
    rw [h2]
    rfl

/-- Claim C1 counterexample: on c1cexBatch the collision group for name x
keeps id 1 and removes id 12, and the author_list element 122 is rewritten
by substring replacement to 12 — the removed id itself — so after
reconciliation an author_list element still contains (here: equals) the
removed id. -/
theorem C1_counterexample :
    labelsNodup c1cexBatch.authors ∧
    collidingEnum c1cexBatch.authors ["x"] ∧
    selectPair c1cexBatch.authors "x" =
      some (⟨0, "1", "x", 9, "s"⟩, ⟨1, "12", "x", 5, "s"⟩) ∧
    reconcile ["x"] c1cexBatch = Except.ok c1cexOut ∧
    pubElem c1cexOut.publications 0 0 = some "12" := by
  refine ⟨?_, ⟨by decide, by decide, by decide⟩, rfl, rfl, rfl⟩
  unfold labelsNodup
  decide

/-- Claim C5 counterexample: both orderings of the duplicated names of
c5cexBatch are valid enumerations, yet the two reconciliation results
differ in the rewritten publication batch, so the result is not
independent of the group processing order. -/
theorem C5_counterexample :
    labelsNodup c5cexBatch.authors ∧
    collidingEnum c5cexBatch.authors ["x", "y"] ∧
    collidingEnum c5cexBatch.authors ["y", "x"] ∧
    reconcile ["x", "y"] c5cexBatch = Except.ok c5cexOutXY ∧
    reconcile ["y", "x"] c5cexBatch = Except.ok c5cexOutYX ∧
    c5cexOutXY.publications ≠ c5cexOutYX.publications := by
  refine ⟨?_, ⟨by decide, by decide, by decide⟩,
    ⟨by decide, by decide, by decide⟩, rfl, rfl, by decide⟩
  unfold labelsNodup
  decide

/-- Claim C6 counterexample: on c6cexBatch the author Bob has the unique
name Bob and id 12, yet reconciling the Alice group replaces the removed
id 1 inside the element 12, so the reference to Bob changes from 12 to 22. -/
theorem C6_counterexample :
    labelsNodup c6cexBatch.authors ∧
    collidingEnum c6cexBatch.authors ["Alice"] ∧
    (⟨2, "12", "Bob", 3, "s"⟩ : AuthorRow) ∈ c6cexBatch.authors ∧
    (nameGroup c6cexBatch.authors "Bob").length = 1 ∧
    reconcile ["Alice"] c6cexBatch = Except.ok c6cexOut ∧
    pubElem c6cexBatch.publications 0 0 = some "12" ∧
    pubElem c6cexOut.publications 0 0 = some "22" := by
  refine ⟨?_, ⟨by decide, by decide, by decide⟩, by decide, rfl, rfl, rfl, rfl⟩
  unfold labelsNodup
  decide

/-- Claim C2 counterexample: reconciling cqBatch completes, yet the record
the claim designates for removal, the last minimum of the doubled-quote
collision group, is still present in the output, because the interpolated
query expression reinterprets the name by implicit string concatenation
and the pass removes an unrelated row instead. -/
theorem C2_counterexample :
    labelsNodup cqBatch.authors ∧
    collidingEnum cqBatch.authors [qqName] ∧
    reconcile [qqName] cqBatch = Except.ok cqOut ∧
    isLastMin (nameGroup cqBatch.authors qqName) ⟨0, "10", qqName, 5, "s"⟩ ∧
    (⟨0, "10", qqName, 5, "s"⟩ : AuthorRow) ∈ cqOut.authors := by
  refine ⟨?_, ⟨by decide, by decide, by decide⟩, rfl, ?_, by decide⟩
  · unfold labelsNodup
    decide
  · exact ⟨[], [⟨1, "11", qqName, 9, "s"⟩], by decide, by decide, by decide⟩

/-- Claim C3 counterexample: the record that the completing cqBatch run
actually removes is the uniquely named OBrien author, which has the
minimum h_index of no collision group — its full name is not even among
the duplicated names. -/
theorem C3_counterexample :
    labelsNodup cqBatch.authors ∧
    collidingEnum cqBatch.authors [qqName] ∧
    reconcile [qqName] cqBatch = Except.ok cqOut ∧
    (⟨2, "12", "OBrien", 3, "s"⟩ : AuthorRow) ∈ cqBatch.authors ∧
    (⟨2, "12", "OBrien", 3, "s"⟩ : AuthorRow) ∉ cqOut.authors ∧
    (⟨2, "12", "OBrien", 3, "s"⟩ : AuthorRow).full_name ∉ [qqName] ∧
    (nameGroup cqBatch.authors "OBrien").length = 1 := by
  refine ⟨?_, ⟨by decide, by decide, by decide⟩, rfl, by decide, by decide,
    by decide, rfl⟩
  unfold labelsNodup
  decide

/-- Claim C4 counterexample: the doubled-quote collision group of cqBatch
is processed by the pass yet loses zero records, not exactly one. -/
theorem C4_counterexample :
    labelsNodup cqBatch.authors ∧
    collidingEnum cqBatch.authors [qqName] ∧
    reconcile [qqName] cqBatch = Except.ok cqOut ∧
    (nameGroup cqBatch.authors qqName).length = 2 ∧
    (nameGroup cqOut.authors qqName).length = 2 := by
  refine ⟨?_, ⟨by decide, by decide, by decide⟩, rfl, rfl, rfl⟩
  unfold labelsNodup
  decide

/-- Claim C2 witness at the three-way collision scenario: the first maximum
record with id 2 survives and the last minimum record with id 3 is gone. -/
theorem C2_canonical_survival_witness :
    (⟨1, "2", "x", 9, "sA"⟩ : AuthorRow) ∈ scenario3out.authors ∧
    (⟨2, "3", "x", 1, "sB"⟩ : AuthorRow) ∉ scenario3out.authors := by
  have h := C2_canonical_survival scenario3 scenario3out ["x"]
    (by unfold labelsNodup; decide) (by decide)
    ⟨by decide, by decide, by decide⟩ rfl "x" (by decide)
  refine ⟨h.1 _ ?_, h.2 _ ?_⟩
  · exact ⟨[⟨0, "1", "x", 5, "sA"⟩], [⟨2, "3", "x", 1, "sB"⟩],
      by decide, by decide, by decide⟩
  · exact ⟨[⟨0, "1", "x", 5, "sA"⟩, ⟨1, "2", "x", 9, "sA"⟩], [],
      by decide, by decide, by decide⟩

/-- Claim C3 witness at the three-way collision scenario: the record that
disappeared is the last minimum of its collision group. -/
theorem C3_removed_is_last_min_witness :
    (⟨2, "3", "x", 1, "sB"⟩ : AuthorRow).full_name ∈ ["x"] ∧
    isLastMin (nameGroup scenario3.authors
      (⟨2, "3", "x", 1, "sB"⟩ : AuthorRow).full_name) ⟨2, "3", "x", 1, "sB"⟩ :=
  C3_removed_is_last_min scenario3 scenario3out ["x"]
    (by unfold labelsNodup; decide) (by decide)
    ⟨by decide, by decide, by decide⟩ rfl
    ⟨2, "3", "x", 1, "sB"⟩ (by decide) (by decide)

/-- Claim C4 witness at the three-way collision scenario: the group of
three loses exactly one record, id 3, and id 1 is still present. -/
theorem C4_single_removal_witness :
    (nameGroup scenario3out.authors "x").length + 1 =
      (nameGroup scenario3.authors "x").length ∧
    scenario3out.authors.map (fun r => r.author_id) = ["1", "2"] := by
  refine ⟨?_, rfl⟩
  exact C4_single_removal_per_group scenario3 scenario3out ["x"]
    (by unfold labelsNodup; decide) (by decide)
    ⟨by decide, by decide, by decide⟩ rfl "x" (by decide)

/-- Claim C5 amended witness at the counterexample batch: the two
orderings still agree on the surviving author batch. -/
theorem C5_amended_witness : c5cexOutXY.authors = c5cexOutYX.authors :=
  C5_amended_authors_order_independent c5cexBatch c5cexOutXY c5cexOutYX
    ["x", "y"] ["y", "x"] (by unfold labelsNodup; decide) (by decide)
    ⟨by decide, by decide, by decide⟩ ⟨by decide, by decide, by decide⟩ rfl rfl

/-- Claim C1 amended witness: on the scenario with one publication the
author_list lengths survive reconciliation, and the element equal to the
removed id 3 is rewritten to the canonical id 2 by the iteration. -/
theorem C1_amended_rewrite_witness :
    c1amOut.publications.map (fun p => p.author_list.length) =
      c1amBatch.publications.map (fun p => p.author_list.length) ∧
    pubElem c1amOut.publications 0 1 = some "2" := by
  have h := C1_amended_rewrite c1amBatch c1amOut ["x"]
    (by unfold labelsNodup; decide) (by decide) rfl
  refine ⟨h.1.1, ?_⟩
  exact h.2 c1amBatch c1amOut "x" "x" ⟨1, "2", "x", 9, "sA"⟩ ⟨2, "3", "x", 1, "sB"⟩
    rfl rfl rfl 0 1 rfl

/-- Claim C6 amended witness: Bob, with unique name and id 7 that no
removed id occurs inside, keeps his record and both references. -/
theorem C6_amended_witness :
    (⟨2, "7", "Bob", 3, "s"⟩ : AuthorRow) ∈ c6amOut.authors ∧
    pubElem c6amOut.publications 0 0 = some "7" ∧
    pubElem c6amOut.incoming_publications 0 0 = some "7" := by
  have h := C6_amended_no_collision c6amBatch c6amOut ["Alice"]
    ⟨2, "7", "Bob", 3, "s"⟩ (by unfold labelsNodup; decide) (by decide)
    ⟨by decide, by decide, by decide⟩ rfl (by decide) (by decide)
  have h2 := h.2 (by decide)
  exact ⟨h.1, h2.1 0 0 rfl, h2.2 0 0 rfl⟩

/-- Claim C7 witness: topic 1 is kept because the publication references
it, and topic 2, which was dropped, is referenced by nothing. -/
theorem C7_topic_filter_sound_witness :
    ((⟨"1", "ta"⟩ : TopicRow) ∈ c7topics ∧
      ∃ p, (p ∈ c7pubs ∨ p ∈ ([] : List PubRow)) ∧
        (⟨"1", "ta"⟩ : TopicRow).topic_id ∈ p.topic_list) ∧
    (∀ p, (p ∈ c7pubs ∨ p ∈ ([] : List PubRow)) →
      (⟨"2", "tb"⟩ : TopicRow).topic_id ∉ p.topic_list) := by
  have h := C7_topic_filter_sound c7topics c7pubs []
  exact ⟨h.1 ⟨"1", "ta"⟩ (by decide), h.2.1 ⟨"2", "tb"⟩ (by decide) (by decide)⟩

/-- Claim C8 witness: with the driver initialized and the session failing
to open, the call yields an absent response with a logged failure. -/
theorem C8_query_error_handling_witness :
    ∃ out, runQuery true ⟨false, false, []⟩ = Except.ok out ∧
      (((⟨false, false, []⟩ : DriverEnv).sessionOpens = false ∨
          (⟨false, false, []⟩ : DriverEnv).runSucceeds = false) →
        out.response = none ∧ out.failureLogged = true) ∧
      (out.sessionOpened = true → out.sessionClosed = true) :=
  C8_query_error_handling true ⟨false, false, []⟩ rfl

/-- Claim C9 witness: the topic row with id 9 and missing name is emitted
with the sentinel name. -/
theorem C9_missing_name_filled_witness :
    ∃ u, (fillTopicNames [⟨"9", none⟩])[0]? = some u ∧
      u.topic_id = (⟨"9", none⟩ : RawTopicRow).topic_id ∧
      u.name = "Not Available" :=
  C9_missing_name_filled [⟨"9", none⟩] 0 ⟨"9", none⟩ rfl rfl

